import Mathlib

/-!
Verification of the monthly-return estimation pipeline of
`stock-options-fetcher` (files `src/Expiry/NSE_EX.py` and
`src/Expiry/NSE_EX_24MONTHS.py`), embedded shallowly over `ℚ`.

The pipeline: daily price observations are grouped by calendar month
(last close per month), month-over-month percentage changes are computed,
outliers are trimmed (fixed-count trim in `NSE_EX.py`, IQR trim in
`NSE_EX_24MONTHS.py`), and exponentially decayed weighted statistics
produce a directional prediction.
-/

/-- One row of the month-over-month table (`monthly_prices` /
`monthly` dataframes after `pct_change` and `dropna`). -/
structure MonthlyReturn where
  year_month : Nat
  close_price : ℚ
  pct_change : ℚ
deriving DecidableEq, Repr

/-- Error taxonomy of the spec (the scripts print and skip the symbol;
the guard conditions are what is modelled). -/
inductive EstimatorError where
  | insufficientData
  | invalidInput
deriving DecidableEq, Repr

/-! ## Fixed-count trim (`NSE_EX.py` lines 45–47) -/

/-- `monthly_prices.sort_values('pct_change')`: the series sorted by
`pct_change` ascending (stable sort as model of the pandas sort). -/
def sorted_changes (s : List MonthlyReturn) : List MonthlyReturn :=
  List.insertionSort (fun a b => a.pct_change ≤ b.pct_change) s

/-- Python slice `l[k:-k]` (as in `sorted_changes.iloc[remove_extremes:-remove_extremes]`):
start index `k`, stop index `len l - k` — except that when `k = 0` the stop
index `-0` is `0`, so the slice is empty. -/
def iloc_slice (l : List MonthlyReturn) (k : Nat) : List MonthlyReturn :=
  let stop := if k = 0 then 0 else l.length - k
  (l.take stop).drop k

/-- `truncated_changes`: sort by `pct_change`, then slice off `k` entries at
each end with the Python slice `[k:-k]`.  Note that the code never
re-sorts the survivors by `YearMonth`. -/
def truncated_changes (s : List MonthlyReturn) (k : Nat) : List MonthlyReturn :=
  iloc_slice (sorted_changes s) k

/-- The guarded trim step of `NSE_EX.py` lines 41–47: the script skips the
symbol (modelled as `InsufficientDataError`) when
`len(monthly_prices) <= 2 * remove_extremes`, otherwise trims. -/
def remove_extremes_step (s : List MonthlyReturn) (k : Nat) :
    Except EstimatorError (List MonthlyReturn) :=
  if s.length ≤ 2 * k then .error .insufficientData
  else .ok (truncated_changes s k)

/-! ## Exponential weights (`NSE_EX.py` lines 49–52, `NSE_EX_24MONTHS.py` lines 91–96) -/

/-- `np.array([alpha**(n - 1 - i) for i in range(n)])`. -/
def raw_weights (alpha : ℚ) (n : Nat) : List ℚ :=
  (List.range n).map (fun i => alpha ^ (n - 1 - i))

/-- `weights /= weights.sum()`: the normalized weight vector. -/
def weights (alpha : ℚ) (n : Nat) : List ℚ :=
  (raw_weights alpha n).map (fun w => w / (raw_weights alpha n).sum)

/-! ## Weighted estimator (`NSE_EX.py` lines 54–71) -/

/-- The `pct_change` column of a series. -/
def pct_changes (s : List MonthlyReturn) : List ℚ :=
  s.map (fun e => e.pct_change)

/-- `zip(weights, truncated_changes['pct_change'])`. -/
def wchg (s : List MonthlyReturn) (alpha : ℚ) : List (ℚ × ℚ) :=
  (weights alpha s.length).zip (pct_changes s)

/-- `np.sum(weights * pct_change)`: the weighted mean monthly change. -/
def mean_change_weighted (s : List MonthlyReturn) (alpha : ℚ) : ℚ :=
  ((wchg s alpha).map (fun p => p.1 * p.2)).sum

/-- `np.sum(w for w, chg in zip(weights, ...) if chg > 0)`. -/
def weighted_positive (s : List MonthlyReturn) (alpha : ℚ) : ℚ :=
  (((wchg s alpha).filter (fun p => decide (0 < p.2))).map (fun p => p.1)).sum

/-- `np.sum(w for w, chg in zip(weights, ...) if chg < 0)`. -/
def weighted_negative (s : List MonthlyReturn) (alpha : ℚ) : ℚ :=
  (((wchg s alpha).filter (fun p => decide (p.2 < 0))).map (fun p => p.1)).sum

/-- `total_weight = weighted_positive + weighted_negative`. -/
def total_weight (s : List MonthlyReturn) (alpha : ℚ) : ℚ :=
  weighted_positive s alpha + weighted_negative s alpha

/-- `weighted_positive / total_weight if total_weight else 0`. -/
def prob_increase_weighted (s : List MonthlyReturn) (alpha : ℚ) : ℚ :=
  if total_weight s alpha ≠ 0 then weighted_positive s alpha / total_weight s alpha else 0

/-- `weighted_negative / total_weight if total_weight else 0`. -/
def prob_decrease_weighted (s : List MonthlyReturn) (alpha : ℚ) : ℚ :=
  if total_weight s alpha ≠ 0 then weighted_negative s alpha / total_weight s alpha else 0

/-- `truncated_changes.loc[pct_change > 0, 'pct_change'].max()`; `⊥` models
pandas' NaN on an empty selection. -/
def max_upside (s : List MonthlyReturn) : WithBot ℚ :=
  ((pct_changes s).filter (fun c => decide (0 < c))).maximum

/-- `truncated_changes.loc[pct_change < 0, 'pct_change'].min()`; `⊤` models
pandas' NaN on an empty selection. -/
def max_downside (s : List MonthlyReturn) : WithTop ℚ :=
  ((pct_changes s).filter (fun c => decide (c < 0))).minimum

/-- The predicted direction string. -/
inductive Direction where
  | Increase
  | Decrease
deriving DecidableEq, Repr

/-- `"Increase" if prob_increase_weighted > prob_decrease_weighted else "Decrease"`. -/
def direction (s : List MonthlyReturn) (alpha : ℚ) : Direction :=
  if prob_decrease_weighted s alpha < prob_increase_weighted s alpha
  then .Increase else .Decrease

/-- `max(prob_increase_weighted, prob_decrease_weighted)`. -/
def max_prob (s : List MonthlyReturn) (alpha : ℚ) : ℚ :=
  max (prob_increase_weighted s alpha) (prob_decrease_weighted s alpha)

/-- The record appended to `results` (the fields of the core estimate). -/
structure WeightedEstimate where
  prob_increase : ℚ
  prob_decrease : ℚ
  dir : Direction
  direction_probability : ℚ
  expected_pct_change : ℚ
  upside : WithBot ℚ
  downside : WithTop ℚ
deriving DecidableEq, Repr

/-- The full estimator over a (trimmed) series, `NSE_EX.py` lines 49–71. -/
def estimate (s : List MonthlyReturn) (alpha : ℚ) : WeightedEstimate :=
  { prob_increase := prob_increase_weighted s alpha
    prob_decrease := prob_decrease_weighted s alpha
    dir := direction s alpha
    direction_probability := max_prob s alpha
    expected_pct_change := mean_change_weighted s alpha
    upside := max_upside s
    downside := max_downside s }

/-! ## IQR trim (`NSE_EX_24MONTHS.py` lines 23–29) -/

/-- Pandas `Series.quantile(q)` with the default linear interpolation:
sort the values, let `h = q * (n - 1)`, and interpolate between the
values at positions `⌊h⌋` and `⌊h⌋ + 1`. -/
def quantile (l : List ℚ) (q : ℚ) : ℚ :=
  let s := List.insertionSort (fun a b : ℚ => a ≤ b) l
  let h : ℚ := q * ((l.length : ℚ) - 1)
  let idx := h.floor.toNat
  let lo := s.getD idx 0
  let hi := s.getD (idx + 1) lo
  lo + (h - (idx : ℚ)) * (hi - lo)

/-- `q1 = data[column].quantile(0.25)`. -/
def q1 (s : List MonthlyReturn) : ℚ := quantile (pct_changes s) (1/4)

/-- `q3 = data[column].quantile(0.75)`. -/
def q3 (s : List MonthlyReturn) : ℚ := quantile (pct_changes s) (3/4)

/-- `lower = q1 - k * iqr`. -/
def iqr_lower (s : List MonthlyReturn) (k : ℚ) : ℚ := q1 s - k * (q3 s - q1 s)

/-- `upper = q3 + k * iqr`. -/
def iqr_upper (s : List MonthlyReturn) (k : ℚ) : ℚ := q3 s + k * (q3 s - q1 s)

/-- `data[(data[column] >= lower) & (data[column] <= upper)]`: the boolean
mask keeps the surviving rows in their original (chronological) order. -/
def remove_outliers_iqr (s : List MonthlyReturn) (k : ℚ) : List MonthlyReturn :=
  s.filter (fun e => decide (iqr_lower s k ≤ e.pct_change) && decide (e.pct_change ≤ iqr_upper s k))

/-! ## Monthly aggregation (`NSE_EX.py` lines 32–39, `NSE_EX_24MONTHS.py` lines 74–84) -/

/-- A daily observation: its calendar month and closing price.  Only the
month matters to the grouping; `agg('last')` takes the last row of each
month group in dataframe order. -/
structure PriceObservation where
  year_month : Nat
  close_price : ℚ
deriving DecidableEq, Repr

/-- Insert `(m, c)` into a month-keyed association list kept sorted by
month: an existing entry for `m` has its close replaced (last row of the
group wins, as with `agg('last')`), otherwise `(m, c)` is inserted at its
sorted position (`groupby` sorts the group keys). -/
def upsert_close (acc : List (Nat × ℚ)) (m : Nat) (c : ℚ) : List (Nat × ℚ) :=
  match acc with
  | [] => [(m, c)]
  | (m', c') :: rest =>
    if m = m' then (m', c) :: rest
    else if m < m' then (m, c) :: (m', c') :: rest
    else (m', c') :: upsert_close rest m c

/-- `data.groupby('YearMonth').agg({'CH_CLOSING_PRICE': 'last'})`: one
`(month, close)` pair per distinct month, months ascending, close taken
from the last observation of the month in input order. -/
def monthly_prices (obs : List PriceObservation) : List (Nat × ℚ) :=
  obs.foldl (fun acc o => upsert_close acc o.year_month o.close_price) []

/-- `pct_change() * 100` followed by `dropna`: every month after the first
becomes a `MonthlyReturn` whose `pct_change` is the relative change from
the preceding month's close, in percent. -/
def aggregate_monthly (obs : List PriceObservation) : List MonthlyReturn :=
  ((monthly_prices obs).zip (monthly_prices obs).tail).map
    (fun p => ⟨p.2.1, p.2.2, (p.2.2 - p.1.2) / p.1.2 * 100⟩)

/-- The number of distinct calendar months among the observations. -/
def num_months (obs : List PriceObservation) : Nat :=
  (obs.map (fun o => o.year_month)).toFinset.card

/-! ## Helper lemmas -/

theorem raw_weights_length (alpha : ℚ) (n : Nat) : (raw_weights alpha n).length = n := by
  simp [raw_weights]

theorem weights_length (alpha : ℚ) (n : Nat) : (weights alpha n).length = n := by
  simp [weights, raw_weights]

theorem pct_changes_length (s : List MonthlyReturn) : (pct_changes s).length = s.length := by
  simp [pct_changes]

theorem mem_raw_weights_pos {alpha : ℚ} {n : Nat} (h0 : 0 < alpha) {x : ℚ}
    (hx : x ∈ raw_weights alpha n) : 0 < x := by
  simp only [raw_weights, List.mem_map] at hx
  obtain ⟨i, _, rfl⟩ := hx
  exact pow_pos h0 _

theorem raw_weights_sum_pos {alpha : ℚ} {n : Nat} (h0 : 0 < alpha) (hn : 1 ≤ n) :
    0 < (raw_weights alpha n).sum := by
  apply List.sum_pos
  · exact fun x hx => mem_raw_weights_pos h0 hx
  · have : (raw_weights alpha n).length = n := raw_weights_length alpha n
    intro hnil
    rw [hnil] at this
    simp at this
    omega

theorem list_sum_map_div (l : List ℚ) (c : ℚ) :
    (l.map (fun x => x / c)).sum = l.sum / c := by
  induction l with
  | nil => simp
  | cons a t ih => simp [ih, add_div]

theorem mem_weights_pos {alpha : ℚ} {n : Nat} (h0 : 0 < alpha) {w : ℚ}
    (hw : w ∈ weights alpha n) : 0 < w := by
  simp only [weights, List.mem_map] at hw
  obtain ⟨x, hx, rfl⟩ := hw
  have hS : 0 < (raw_weights alpha n).sum := by
    apply List.sum_pos
    · exact fun y hy => mem_raw_weights_pos h0 hy
    · exact List.ne_nil_of_mem hx
  exact div_pos (mem_raw_weights_pos h0 hx) hS

theorem mem_wchg_fst_mem {s : List MonthlyReturn} {alpha : ℚ} {p : ℚ × ℚ}
    (hp : p ∈ wchg s alpha) : p.1 ∈ weights alpha s.length := by
  simp only [wchg] at hp
  exact (List.of_mem_zip ((Prod.mk.eta (p := p)) ▸ hp)).1

theorem weighted_positive_nonneg (s : List MonthlyReturn) (alpha : ℚ) (h0 : 0 < alpha) :
    0 ≤ weighted_positive s alpha := by
  apply List.sum_nonneg
  intro x hx
  simp only [List.mem_map] at hx
  obtain ⟨p, hp, rfl⟩ := hx
  exact le_of_lt (mem_weights_pos h0 (mem_wchg_fst_mem (List.mem_of_mem_filter hp)))

theorem weighted_negative_nonneg (s : List MonthlyReturn) (alpha : ℚ) (h0 : 0 < alpha) :
    0 ≤ weighted_negative s alpha := by
  apply List.sum_nonneg
  intro x hx
  simp only [List.mem_map] at hx
  obtain ⟨p, hp, rfl⟩ := hx
  exact le_of_lt (mem_weights_pos h0 (mem_wchg_fst_mem (List.mem_of_mem_filter hp)))

theorem exists_wchg_pair {s : List MonthlyReturn} (alpha : ℚ) {e : MonthlyReturn}
    (he : e ∈ s) : ∃ p ∈ wchg s alpha, p.2 = e.pct_change := by
  obtain ⟨i, hi, hie⟩ := List.mem_iff_getElem.mp he
  have hlen : (wchg s alpha).length = s.length := by
    simp [wchg, weights_length, pct_changes_length]
  have hiw : i < (wchg s alpha).length := by omega
  refine ⟨(wchg s alpha)[i], List.getElem_mem hiw, ?_⟩
  have h2 : i < (pct_changes s).length := by
    rw [pct_changes_length]; omega
  have h1w : i < (weights alpha s.length).length := by
    rw [weights_length]; omega
  have : (wchg s alpha)[i] = ((weights alpha s.length)[i], (pct_changes s)[i]) := by
    simp [wchg, List.getElem_zip]
  rw [this]
  simp [pct_changes, hie]

theorem weighted_positive_pos {s : List MonthlyReturn} {alpha : ℚ} (h0 : 0 < alpha)
    {e : MonthlyReturn} (he : e ∈ s) (hpos : 0 < e.pct_change) :
    0 < weighted_positive s alpha := by
  obtain ⟨p, hp, hpe⟩ := exists_wchg_pair alpha he
  have hpf : p ∈ (wchg s alpha).filter (fun p => decide (0 < p.2)) :=
    List.mem_filter.mpr ⟨hp, by simp [hpe, hpos]⟩
  apply List.sum_pos
  · intro x hx
    simp only [List.mem_map] at hx
    obtain ⟨q, hq, rfl⟩ := hx
    exact mem_weights_pos h0 (mem_wchg_fst_mem (List.mem_of_mem_filter hq))
  · exact List.ne_nil_of_mem (List.mem_map_of_mem _ hpf)

theorem weighted_negative_pos {s : List MonthlyReturn} {alpha : ℚ} (h0 : 0 < alpha)
    {e : MonthlyReturn} (he : e ∈ s) (hneg : e.pct_change < 0) :
    0 < weighted_negative s alpha := by
  obtain ⟨p, hp, hpe⟩ := exists_wchg_pair alpha he
  have hpf : p ∈ (wchg s alpha).filter (fun p => decide (p.2 < 0)) :=
    List.mem_filter.mpr ⟨hp, by simp [hpe, hneg]⟩
  apply List.sum_pos
  · intro x hx
    simp only [List.mem_map] at hx
    obtain ⟨q, hq, rfl⟩ := hx
    exact mem_weights_pos h0 (mem_wchg_fst_mem (List.mem_of_mem_filter hq))
  · exact List.ne_nil_of_mem (List.mem_map_of_mem _ hpf)

theorem total_weight_pos {s : List MonthlyReturn} {alpha : ℚ} (h0 : 0 < alpha)
    (hne : ∃ e ∈ s, e.pct_change ≠ 0) : 0 < total_weight s alpha := by
  obtain ⟨e, he, he0⟩ := hne
  rcases lt_or_gt_of_ne he0 with hneg | hpos
  · have := weighted_negative_pos h0 he hneg
    have := weighted_positive_nonneg s alpha h0
    unfold total_weight; linarith
  · have := weighted_positive_pos h0 he hpos
    have := weighted_negative_nonneg s alpha h0
    unfold total_weight; linarith

theorem prob_sum_one {s : List MonthlyReturn} {alpha : ℚ} (h0 : 0 < alpha)
    (hne : ∃ e ∈ s, e.pct_change ≠ 0) :
    prob_increase_weighted s alpha + prob_decrease_weighted s alpha = 1 := by
  have ht : 0 < total_weight s alpha := total_weight_pos h0 hne
  have ht' : total_weight s alpha ≠ 0 := ne_of_gt ht
  unfold prob_increase_weighted prob_decrease_weighted
  rw [if_pos ht', if_pos ht', div_add_div_same]
  unfold total_weight at ht' ⊢
  exact div_self ht'

theorem all_zero_weighted (s : List MonthlyReturn) (alpha : ℚ)
    (hz : ∀ e ∈ s, e.pct_change = 0) :
    weighted_positive s alpha = 0 ∧ weighted_negative s alpha = 0 := by
  have hwz : ∀ p ∈ wchg s alpha, p.2 = 0 := by
    intro p hp
    have h2 : p.2 ∈ pct_changes s := by
      simp only [wchg] at hp
      exact (List.of_mem_zip ((Prod.mk.eta (p := p)) ▸ hp)).2
    simp only [pct_changes, List.mem_map] at h2
    obtain ⟨e, he, hpe⟩ := h2
    rw [← hpe]
    exact hz e he
  constructor
  · unfold weighted_positive
    rw [List.filter_eq_nil_iff.mpr ?_]
    · simp
    · intro p hp
      simp [hwz p hp]
  · unfold weighted_negative
    rw [List.filter_eq_nil_iff.mpr ?_]
    · simp
    · intro p hp
      simp [hwz p hp]

theorem all_zero_probs (s : List MonthlyReturn) (alpha : ℚ)
    (hz : ∀ e ∈ s, e.pct_change = 0) :
    prob_increase_weighted s alpha = 0 ∧ prob_decrease_weighted s alpha = 0 := by
  obtain ⟨hp, hn⟩ := all_zero_weighted s alpha hz
  have ht : total_weight s alpha = 0 := by unfold total_weight; rw [hp, hn]; ring
  unfold prob_increase_weighted prob_decrease_weighted
  rw [if_neg (by simp [ht]), if_neg (by simp [ht])]
  exact ⟨rfl, rfl⟩

theorem all_zero_bounds {s : List MonthlyReturn}
    (hz : ∀ e ∈ s, e.pct_change = 0) :
    max_upside s = ⊥ ∧ max_downside s = ⊤ := by
  have hup : (pct_changes s).filter (fun c => decide (0 < c)) = [] := by
    apply List.filter_eq_nil_iff.mpr
    intro c hc
    simp only [pct_changes, List.mem_map] at hc
    obtain ⟨e, he, rfl⟩ := hc
    simp [hz e he]
  have hdn : (pct_changes s).filter (fun c => decide (c < 0)) = [] := by
    apply List.filter_eq_nil_iff.mpr
    intro c hc
    simp only [pct_changes, List.mem_map] at hc
    obtain ⟨e, he, rfl⟩ := hc
    simp [hz e he]
  constructor
  · unfold max_upside; rw [hup]; rfl
  · unfold max_downside; rw [hdn]; rfl

/-! ## Claim theorems -/

/-- C5: the fixed-count trim step fails with `InsufficientDataError` exactly
when the series length is at most `2 * k`; in particular the guard covers
a series of length 2 with `k = 1`, and no estimate is produced there. -/
theorem remove_extremes_error_iff (s : List MonthlyReturn) (k : Nat) :
    remove_extremes_step s k = Except.error EstimatorError.insufficientData ↔
      s.length ≤ 2 * k := by
  unfold remove_extremes_step
  split
  · simp_all
  · simp_all

/-- C5 witness: a series of length 2 with `k = 1` hits the guard. -/
theorem remove_extremes_error_iff_witness :
    remove_extremes_step [⟨1, 100, 2⟩, ⟨2, 102, -1⟩] 1 =
      Except.error EstimatorError.insufficientData :=
  (remove_extremes_error_iff [⟨1, 100, 2⟩, ⟨2, 102, -1⟩] 1).mpr (by decide)

/-- C1: on the five-month series with `pct_change` values `5, 1, 3, 0, 2`
(months 1–5) and `k = 1`, the code keeps the survivors in
`pct_change`-sorted order — months `2, 5, 3` — and does *not* restore
chronological order (which would be months `2, 3, 5`): the trimmed frame is
never re-sorted by `YearMonth`, so the claim's "restored to chronological
order" fails on the code. -/
theorem truncated_changes_pct_order :
    truncated_changes
        [⟨1, 100, 5⟩, ⟨2, 100, 1⟩, ⟨3, 100, 3⟩, ⟨4, 100, 0⟩, ⟨5, 100, 2⟩] 1 =
      [⟨2, 100, 1⟩, ⟨5, 100, 2⟩, ⟨3, 100, 3⟩] ∧
    (truncated_changes
        [⟨1, 100, 5⟩, ⟨2, 100, 1⟩, ⟨3, 100, 3⟩, ⟨4, 100, 0⟩, ⟨5, 100, 2⟩] 1).map
        (fun e => e.year_month) = [2, 5, 3] ∧
    ¬ List.Sorted (· < ·)
      ((truncated_changes
          [⟨1, 100, 5⟩, ⟨2, 100, 1⟩, ⟨3, 100, 3⟩, ⟨4, 100, 0⟩, ⟨5, 100, 2⟩] 1).map
        (fun e => e.year_month)) := by
  refine ⟨by decide, by decide, ?_⟩
  intro h
  have : ¬ ((5 : Nat) < 3) := by omega
  exact this (List.rel_of_sorted_cons (List.sorted_cons.mp h).2 3 (by decide))

/-- C2: with `k = 0` the Python slice `[0:-0]` empties the series: on the
three-month series with `pct_change` values `1, 2, 3` the guard passes
(`3 > 0`) and the trim returns the empty series, not the input unchanged. -/
theorem truncated_changes_k_zero_empty :
    remove_extremes_step [⟨1, 100, 1⟩, ⟨2, 100, 2⟩, ⟨3, 100, 3⟩] 0 =
      Except.ok ([] : List MonthlyReturn) ∧
    truncated_changes [⟨1, 100, 1⟩, ⟨2, 100, 2⟩, ⟨3, 100, 3⟩] 0 ≠
      [⟨1, 100, 1⟩, ⟨2, 100, 2⟩, ⟨3, 100, 3⟩] := by
  constructor
  · rfl
  · decide

/-- C6 counterexample: on the empty trimmed series the estimator raises no
error at all — it silently produces the degenerate estimate with both
probabilities `0`, direction `Decrease` and undefined extremes, because the
empty weight vector divided by its zero sum is again empty and every sum
over it is `0`. -/
theorem estimate_empty_counterexample :
    estimate [] (4/5) =
      { prob_increase := 0, prob_decrease := 0, dir := Direction.Decrease,
        direction_probability := 0, expected_pct_change := 0,
        upside := ⊥, downside := ⊤ } := by
  have hz : prob_increase_weighted [] (4/5) = 0 ∧ prob_decrease_weighted [] (4/5) = 0 :=
    all_zero_probs [] (4/5) (by intro e he; cases he)
  have hb : max_upside [] = ⊥ ∧ max_downside [] = ⊤ :=
    all_zero_bounds (by intro e he; cases he)
  unfold estimate direction max_prob mean_change_weighted
  rw [hz.1, hz.2, hb.1, hb.2]
  simp [wchg, pct_changes]

/-- C6 amended: for every decay factor, the estimator on the empty series
does not fail; it returns the degenerate estimate (probabilities `0`,
direction `Decrease`, undefined `max_upside`/`max_downside`). -/
theorem estimate_empty (alpha : ℚ) :
    estimate [] alpha =
      { prob_increase := 0, prob_decrease := 0, dir := Direction.Decrease,
        direction_probability := 0, expected_pct_change := 0,
        upside := ⊥, downside := ⊤ } := by
  have hz : prob_increase_weighted [] alpha = 0 ∧ prob_decrease_weighted [] alpha = 0 :=
    all_zero_probs [] alpha (by intro e he; cases he)
  have hb : max_upside [] = ⊥ ∧ max_downside [] = ⊤ :=
    all_zero_bounds (by intro e he; cases he)
  unfold estimate direction max_prob mean_change_weighted
  rw [hz.1, hz.2, hb.1, hb.2]
  simp [wchg, pct_changes]

/-- C7: for every series and positive `k`, the IQR trim retains exactly the
entries whose `pct_change` lies within `[Q1 - k*IQR, Q3 + k*IQR]`
inclusive (never one strictly outside), and the survivors form a sublist of
the input, i.e. keep their chronological order. -/
theorem remove_outliers_iqr_spec (s : List MonthlyReturn) (k : ℚ) (_hk : 0 < k) :
    (∀ e ∈ remove_outliers_iqr s k,
        iqr_lower s k ≤ e.pct_change ∧ e.pct_change ≤ iqr_upper s k) ∧
    (∀ e ∈ s, iqr_lower s k ≤ e.pct_change → e.pct_change ≤ iqr_upper s k →
        e ∈ remove_outliers_iqr s k) ∧
    (remove_outliers_iqr s k).Sublist s := by
  refine ⟨?_, ?_, List.filter_sublist s⟩
  · intro e he
    have := List.mem_filter.mp he
    constructor
    · have := this.2
      simp only [Bool.and_eq_true, decide_eq_true_eq] at this
      exact this.1
    · have := this.2
      simp only [Bool.and_eq_true, decide_eq_true_eq] at this
      exact this.2
  · intro e he h1 h2
    exact List.mem_filter.mpr ⟨he, by simp [h1, h2]⟩

/-- C7 witness: on a concrete five-entry series with `k = 3/2` the
survivors form a sublist of the input. -/
theorem remove_outliers_iqr_spec_witness :
    (remove_outliers_iqr
        [⟨1, 100, 2⟩, ⟨2, 100, -1⟩, ⟨3, 100, 3⟩, ⟨4, 100, 40⟩, ⟨5, 100, 1⟩]
        (3/2)).Sublist
      [⟨1, 100, 2⟩, ⟨2, 100, -1⟩, ⟨3, 100, 3⟩, ⟨4, 100, 40⟩, ⟨5, 100, 1⟩] :=
  (remove_outliers_iqr_spec
    [⟨1, 100, 2⟩, ⟨2, 100, -1⟩, ⟨3, 100, 3⟩, ⟨4, 100, 40⟩, ⟨5, 100, 1⟩]
    (3/2) (by norm_num)).2.2

theorem prob_increase_mem_unit (s : List MonthlyReturn) (alpha : ℚ) (h0 : 0 < alpha) :
    0 ≤ prob_increase_weighted s alpha ∧ prob_increase_weighted s alpha ≤ 1 := by
  have hwp := weighted_positive_nonneg s alpha h0
  have hwn := weighted_negative_nonneg s alpha h0
  unfold prob_increase_weighted
  split
  case isTrue h =>
    have ht : 0 < total_weight s alpha :=
      lt_of_le_of_ne (by unfold total_weight; linarith) (Ne.symm h)
    constructor
    · exact div_nonneg hwp ht.le
    · rw [div_le_one ht]
      unfold total_weight
      linarith
  case isFalse h => norm_num

theorem prob_decrease_mem_unit (s : List MonthlyReturn) (alpha : ℚ) (h0 : 0 < alpha) :
    0 ≤ prob_decrease_weighted s alpha ∧ prob_decrease_weighted s alpha ≤ 1 := by
  have hwp := weighted_positive_nonneg s alpha h0
  have hwn := weighted_negative_nonneg s alpha h0
  unfold prob_decrease_weighted
  split
  case isTrue h =>
    have ht : 0 < total_weight s alpha :=
      lt_of_le_of_ne (by unfold total_weight; linarith) (Ne.symm h)
    constructor
    · exact div_nonneg hwn ht.le
    · rw [div_le_one ht]
      unfold total_weight
      linarith
  case isFalse h => norm_num

theorem weights_getD_eq (alpha : ℚ) (n : Nat) {i : Nat} (hi : i < n) :
    (weights alpha n).getD i 0 = alpha ^ (n - 1 - i) / (raw_weights alpha n).sum := by
  have hlen : (weights alpha n).length = n := weights_length alpha n
  rw [List.getD_eq_getElem _ _ (by omega)]
  simp [weights, raw_weights]

/-- C3: for every decay in `(0, 1]` and `n ≥ 1`, the `i`-th normalized
weight is `decay^(n-1-i)` divided by the sum of the raw weights (so
proportional to `decay^(n-1-i)`), the most recent entry (`i = n-1`) has the
largest weight, and the normalized weights sum to 1. -/
theorem weights_spec (alpha : ℚ) (n : Nat) (h0 : 0 < alpha) (h1 : alpha ≤ 1)
    (hn : 1 ≤ n) :
    (weights alpha n).sum = 1 ∧
    (∀ i, i < n →
      (weights alpha n).getD i 0 = alpha ^ (n - 1 - i) / (raw_weights alpha n).sum) ∧
    (∀ i, i < n → (weights alpha n).getD i 0 ≤ (weights alpha n).getD (n - 1) 0) := by
  have hS : 0 < (raw_weights alpha n).sum := raw_weights_sum_pos h0 hn
  refine ⟨?_, fun i hi => weights_getD_eq alpha n hi, ?_⟩
  · unfold weights
    rw [list_sum_map_div]
    exact div_self (ne_of_gt hS)
  · intro i hi
    rw [weights_getD_eq alpha n hi, weights_getD_eq alpha n (show n - 1 < n by omega)]
    have h00 : n - 1 - (n - 1) = 0 := by omega
    rw [h00, pow_zero]
    have hple : alpha ^ (n - 1 - i) ≤ 1 := pow_le_one₀ h0.le h1
    exact div_le_div_of_nonneg_right hple hS.le

/-- C3 witness: with decay `4/5` and `n = 3` the normalized weights sum
to 1. -/
theorem weights_spec_witness : (weights (4/5) 3).sum = 1 :=
  (weights_spec (4/5) 3 (by norm_num) (by norm_num) (by norm_num)).1

/-- C4: for every series and positive decay, `prob_increase + prob_decrease`
equals 1 when at least one entry has nonzero `pct_change` (the zero-change
entries pass neither the `chg > 0` nor the `chg < 0` filter, so they feed
neither numerator), and both probabilities are 0 when every entry has
`pct_change` exactly 0. -/
theorem prob_partition (s : List MonthlyReturn) (alpha : ℚ) (h0 : 0 < alpha) :
    ((∃ e ∈ s, e.pct_change ≠ 0) →
      prob_increase_weighted s alpha + prob_decrease_weighted s alpha = 1) ∧
    ((∀ e ∈ s, e.pct_change = 0) →
      prob_increase_weighted s alpha = 0 ∧ prob_decrease_weighted s alpha = 0) :=
  ⟨fun hne => prob_sum_one h0 hne, fun hz => all_zero_probs s alpha hz⟩

/-- C4 witness: on a one-entry series with `pct_change = 2` and decay `4/5`
the two probabilities sum to 1. -/
theorem prob_partition_witness :
    prob_increase_weighted [⟨1, 100, 2⟩] (4/5) +
      prob_decrease_weighted [⟨1, 100, 2⟩] (4/5) = 1 :=
  (prob_partition [⟨1, 100, 2⟩] (4/5) (by norm_num)).1
    ⟨⟨1, 100, 2⟩, by decide, by decide⟩

/-- C9: the predicted direction is `Increase` exactly when
`prob_increase > prob_decrease` (a tie resolves to `Decrease`),
`direction_probability` is the larger probability, and on an all-zero
series both probabilities are 0, the direction is `Decrease` and
`max_upside` / `max_downside` are undefined. -/
theorem direction_tie_break (s : List MonthlyReturn) (alpha : ℚ) :
    ((estimate s alpha).dir = Direction.Increase ↔
      (estimate s alpha).prob_decrease < (estimate s alpha).prob_increase) ∧
    (estimate s alpha).direction_probability =
      max (estimate s alpha).prob_increase (estimate s alpha).prob_decrease ∧
    ((∀ e ∈ s, e.pct_change = 0) →
      (estimate s alpha).prob_increase = 0 ∧ (estimate s alpha).prob_decrease = 0 ∧
      (estimate s alpha).dir = Direction.Decrease ∧
      (estimate s alpha).upside = ⊥ ∧ (estimate s alpha).downside = ⊤) := by
  refine ⟨?_, rfl, ?_⟩
  · show direction s alpha = Direction.Increase ↔
      prob_decrease_weighted s alpha < prob_increase_weighted s alpha
    unfold direction
    split
    case isTrue h => simp [h]
    case isFalse h => simp [h]
  · intro hz
    obtain ⟨hpi, hpd⟩ := all_zero_probs s alpha hz
    obtain ⟨hu, hd⟩ := all_zero_bounds hz
    refine ⟨hpi, hpd, ?_, hu, hd⟩
    show direction s alpha = Direction.Decrease
    unfold direction
    rw [if_neg]
    rw [hpi, hpd]
    exact lt_irrefl 0

/-- C9 witness: on the all-zero one-entry series the direction is
`Decrease`. -/
theorem direction_tie_break_witness :
    (estimate [⟨1, 100, 0⟩] (1/2)).dir = Direction.Decrease :=
  ((direction_tie_break [⟨1, 100, 0⟩] (1/2)).2.2 (by decide)).2.2.1

/-- C10: both probabilities lie in `[0, 1]`; when some entry has nonzero
`pct_change` the direction probability is at least `1/2`; and a defined
`max_upside` is strictly positive while a defined `max_downside` is
strictly negative. -/
theorem estimate_invariants (s : List MonthlyReturn) (alpha : ℚ) (h0 : 0 < alpha) :
    (0 ≤ (estimate s alpha).prob_increase ∧ (estimate s alpha).prob_increase ≤ 1 ∧
     0 ≤ (estimate s alpha).prob_decrease ∧ (estimate s alpha).prob_decrease ≤ 1) ∧
    ((∃ e ∈ s, e.pct_change ≠ 0) → 1/2 ≤ (estimate s alpha).direction_probability) ∧
    (∀ v : ℚ, (estimate s alpha).upside = (v : WithBot ℚ) → 0 < v) ∧
    (∀ v : ℚ, (estimate s alpha).downside = (v : WithTop ℚ) → v < 0) := by
  obtain ⟨hi0, hi1⟩ := prob_increase_mem_unit s alpha h0
  obtain ⟨hd0, hd1⟩ := prob_decrease_mem_unit s alpha h0
  refine ⟨⟨hi0, hi1, hd0, hd1⟩, ?_, ?_, ?_⟩
  · intro hne
    have hsum := prob_sum_one h0 hne
    show 1/2 ≤ max_prob s alpha
    unfold max_prob
    have h1 := le_max_left (prob_increase_weighted s alpha) (prob_decrease_weighted s alpha)
    have h2 := le_max_right (prob_increase_weighted s alpha) (prob_decrease_weighted s alpha)
    linarith
  · intro v hv
    have hv' : max_upside s = (v : WithBot ℚ) := hv
    unfold max_upside at hv'
    have hm := List.maximum_mem hv'
    have := (List.mem_filter.mp hm).2
    simpa using this
  · intro v hv
    have hv' : max_downside s = (v : WithTop ℚ) := hv
    unfold max_downside at hv'
    have hm := List.minimum_mem hv'
    have := (List.mem_filter.mp hm).2
    simpa using this

/-- C10 witness: on a one-entry series with `pct_change = 2` and decay
`4/5` the direction probability is at least `1/2`. -/
theorem estimate_invariants_witness :
    1/2 ≤ (estimate [⟨1, 100, 2⟩] (4/5)).direction_probability :=
  (estimate_invariants [⟨1, 100, 2⟩] (4/5) (by norm_num)).2.1
    ⟨⟨1, 100, 2⟩, by decide, by decide⟩

/-! ## Lemmas on the monthly aggregation -/

theorem upsert_close_replace (t : List (Nat × ℚ)) (m : Nat) (c c' : ℚ) :
    upsert_close ((m, c') :: t) m c = (m, c) :: t := by
  simp [upsert_close]

theorem upsert_close_insert (t : List (Nat × ℚ)) {m m' : Nat} (c c' : ℚ)
    (h : m < m') : upsert_close ((m', c') :: t) m c = (m, c) :: (m', c') :: t := by
  simp [upsert_close, Nat.ne_of_lt h, h]

theorem upsert_close_skip (t : List (Nat × ℚ)) {m m' : Nat} (c c' : ℚ)
    (h1 : m ≠ m') (h2 : ¬ m < m') :
    upsert_close ((m', c') :: t) m c = (m', c') :: upsert_close t m c := by
  simp [upsert_close, h1, h2]

theorem upsert_keys_mem (acc : List (Nat × ℚ)) (m : Nat) (c : ℚ) (x : Nat) :
    x ∈ (upsert_close acc m c).map Prod.fst ↔ x = m ∨ x ∈ acc.map Prod.fst := by
  induction acc with
  | nil => simp [upsert_close]
  | cons hd t ih =>
    obtain ⟨m', c'⟩ := hd
    by_cases h1 : m = m'
    · subst h1
      rw [upsert_close_replace]
      simp only [List.map_cons, List.mem_cons]
      tauto
    · by_cases h2 : m < m'
      · rw [upsert_close_insert t c c' h2]
        simp only [List.map_cons, List.mem_cons]
      · rw [upsert_close_skip t c c' h1 h2]
        simp only [List.map_cons, List.mem_cons, ih]
        tauto

theorem upsert_keys_sorted (acc : List (Nat × ℚ)) (m : Nat) (c : ℚ)
    (hs : List.Sorted (· < ·) (acc.map Prod.fst)) :
    List.Sorted (· < ·) ((upsert_close acc m c).map Prod.fst) := by
  induction acc with
  | nil => simp [upsert_close]
  | cons hd t ih =>
    obtain ⟨m', c'⟩ := hd
    simp only [List.map_cons, List.sorted_cons] at hs
    obtain ⟨hlt, hst⟩ := hs
    by_cases h1 : m = m'
    · subst h1
      rw [upsert_close_replace]
      simp only [List.map_cons, List.sorted_cons]
      exact ⟨hlt, hst⟩
    · by_cases h2 : m < m'
      · rw [upsert_close_insert t c c' h2]
        simp only [List.map_cons, List.sorted_cons]
        refine ⟨?_, hlt, hst⟩
        intro b hb
        rcases List.mem_cons.mp hb with rfl | hb'
        · exact h2
        · exact lt_trans h2 (hlt b hb')
      · rw [upsert_close_skip t c c' h1 h2]
        simp only [List.map_cons, List.sorted_cons]
        refine ⟨?_, ih hst⟩
        intro b hb
        rcases (upsert_keys_mem t m c b).mp hb with rfl | hb'
        · omega
        · exact hlt b hb'

theorem monthly_fold_mem (obs : List PriceObservation) :
    ∀ (acc : List (Nat × ℚ)) (x : Nat),
      x ∈ ((obs.foldl (fun acc o => upsert_close acc o.year_month o.close_price) acc).map
        Prod.fst) ↔
      x ∈ acc.map Prod.fst ∨ x ∈ obs.map (fun o => o.year_month) := by
  induction obs with
  | nil => simp
  | cons o t ih =>
    intro acc x
    simp only [List.foldl_cons, List.map_cons, List.mem_cons]
    rw [ih]
    rw [upsert_keys_mem]
    tauto

theorem monthly_fold_sorted (obs : List PriceObservation) :
    ∀ (acc : List (Nat × ℚ)), List.Sorted (· < ·) (acc.map Prod.fst) →
      List.Sorted (· < ·)
        ((obs.foldl (fun acc o => upsert_close acc o.year_month o.close_price) acc).map
          Prod.fst) := by
  induction obs with
  | nil => intro acc h; exact h
  | cons o t ih =>
    intro acc h
    exact ih _ (upsert_keys_sorted acc o.year_month o.close_price h)

theorem monthly_prices_keys_sorted (obs : List PriceObservation) :
    List.Sorted (· < ·) ((monthly_prices obs).map Prod.fst) :=
  monthly_fold_sorted obs [] (by simp)

theorem monthly_prices_keys_mem (obs : List PriceObservation) (x : Nat) :
    x ∈ (monthly_prices obs).map Prod.fst ↔ x ∈ obs.map (fun o => o.year_month) := by
  rw [monthly_prices, monthly_fold_mem]
  simp

theorem monthly_prices_length (obs : List PriceObservation) :
    (monthly_prices obs).length = num_months obs := by
  have hnd : ((monthly_prices obs).map Prod.fst).Nodup :=
    (monthly_prices_keys_sorted obs).nodup
  have hfin : ((monthly_prices obs).map Prod.fst).toFinset =
      (obs.map (fun o => o.year_month)).toFinset := by
    apply Finset.ext
    intro a
    rw [List.mem_toFinset, List.mem_toFinset]
    exact monthly_prices_keys_mem obs a
  have h1 : ((monthly_prices obs).map Prod.fst).toFinset.card =
      ((monthly_prices obs).map Prod.fst).length :=
    List.toFinset_card_of_nodup hnd
  have h2 : ((monthly_prices obs).map Prod.fst).length = (monthly_prices obs).length :=
    List.length_map _ _
  unfold num_months
  rw [← hfin, h1, h2]

theorem zip_tail_snd (l : List (Nat × ℚ)) :
    (l.zip l.tail).map Prod.snd = l.tail := by
  induction l with
  | nil => simp
  | cons a t ih =>
    cases t with
    | nil => simp
    | cons b r =>
      simp only [List.tail_cons, List.zip_cons_cons, List.map_cons]
      rw [show (b :: r : List (Nat × ℚ)).zip r = (b :: r).zip (b :: r).tail from rfl]
      rw [ih]
      simp

theorem aggregate_months_eq (obs : List PriceObservation) :
    (aggregate_monthly obs).map (fun e => e.year_month) =
      ((monthly_prices obs).map Prod.fst).tail := by
  unfold aggregate_monthly
  rw [List.map_map]
  have hfun : ((fun e : MonthlyReturn => e.year_month) ∘
      (fun p : (Nat × ℚ) × (Nat × ℚ) =>
        (⟨p.2.1, p.2.2, (p.2.2 - p.1.2) / p.1.2 * 100⟩ : MonthlyReturn))) =
      (Prod.fst ∘ Prod.snd) := rfl
  rw [hfun]
  rw [← List.map_map]
  rw [zip_tail_snd]
  exact List.map_tail _ _

theorem aggregate_monthly_length (obs : List PriceObservation) :
    (aggregate_monthly obs).length = (monthly_prices obs).length - 1 := by
  unfold aggregate_monthly
  rw [List.length_map, List.length_zip, List.length_tail]
  omega

theorem aggregate_monthly_getD (obs : List PriceObservation) (i : Nat)
    (hi : i + 1 < (monthly_prices obs).length) :
    (aggregate_monthly obs).getD i ⟨0, 0, 0⟩ =
      ⟨((monthly_prices obs).getD (i + 1) (0, 0)).1,
       ((monthly_prices obs).getD (i + 1) (0, 0)).2,
       (((monthly_prices obs).getD (i + 1) (0, 0)).2 -
          ((monthly_prices obs).getD i (0, 0)).2) /
         ((monthly_prices obs).getD i (0, 0)).2 * 100⟩ := by
  have hlen : (aggregate_monthly obs).length = (monthly_prices obs).length - 1 :=
    aggregate_monthly_length obs
  have hia : i < (aggregate_monthly obs).length := by omega
  have hit : i < (monthly_prices obs).tail.length := by
    rw [List.length_tail]; omega
  have hiz : i < ((monthly_prices obs).zip (monthly_prices obs).tail).length := by
    rw [List.length_zip, List.length_tail]; omega
  rw [List.getD_eq_getElem _ _ hia, List.getD_eq_getElem _ _ hi,
    List.getD_eq_getElem _ _ (show i < (monthly_prices obs).length by omega)]
  simp only [aggregate_monthly, List.getElem_map, List.getElem_zip, List.getElem_tail]

/-- C8: for every observation sequence covering at least two distinct
calendar months, `aggregate_monthly` returns exactly
`(distinct months - 1)` entries, their months strictly increasing
(chronological order), the surviving months are exactly the grouped months
with the first dropped, and each entry's `pct_change` is the relative
change from the immediately preceding month's close (times 100). -/
theorem aggregate_monthly_spec (obs : List PriceObservation)
    (_h2 : 2 ≤ num_months obs) :
    (aggregate_monthly obs).length = num_months obs - 1 ∧
    List.Sorted (· < ·) ((aggregate_monthly obs).map (fun e => e.year_month)) ∧
    (aggregate_monthly obs).map (fun e => e.year_month) =
      ((monthly_prices obs).map Prod.fst).tail ∧
    (∀ i, i + 1 < (monthly_prices obs).length →
      (aggregate_monthly obs).getD i ⟨0, 0, 0⟩ =
        ⟨((monthly_prices obs).getD (i + 1) (0, 0)).1,
         ((monthly_prices obs).getD (i + 1) (0, 0)).2,
         (((monthly_prices obs).getD (i + 1) (0, 0)).2 -
            ((monthly_prices obs).getD i (0, 0)).2) /
           ((monthly_prices obs).getD i (0, 0)).2 * 100⟩) := by
  refine ⟨?_, ?_, aggregate_months_eq obs, fun i hi => aggregate_monthly_getD obs i hi⟩
  · rw [aggregate_monthly_length, monthly_prices_length]
  · rw [aggregate_months_eq]
    exact List.Pairwise.sublist (List.tail_sublist _) (monthly_prices_keys_sorted obs)

/-- C8 witness: two observations in distinct months yield exactly one
monthly return. -/
theorem aggregate_monthly_spec_witness :
    (aggregate_monthly [⟨0, 100⟩, ⟨1, 110⟩]).length =
      num_months [⟨0, 100⟩, ⟨1, 110⟩] - 1 :=
  (aggregate_monthly_spec [⟨0, 100⟩, ⟨1, 110⟩] (by decide)).1
